import Mathlib

/-!
Shallow embedding of the triplet-loss recommendation notebooks
(`triplet_pytorch.ipynb` and its WARP variant): the negative sampler
`sample_neg`, the chunking generator `batcher`, the evaluator `full_auc`,
the embedding model `FactNet` (`predict_score`, `forward`), and the
`TripletLoss` variants (`forward_sigmoid`, `forward_hinge`, `warp_weight`),
together with theorems settling the specification claims about them.
-/

namespace TripletRec

/-- A compressed sparse row view of the user-item interaction matrix, holding
just the two index arrays the notebooks touch (`indptr`, `indices`). -/
structure CSRMat where
  indptr : List ℕ
  indices : List ℕ

/-- Embeds `get_row_nz(csr_mat, col_ind)`: the slice
`csr_mat.indices[indptr[col_ind] : indptr[col_ind+1]]`, i.e. the nonzero
column indices of one row. -/
def get_row_nz (csr_mat : CSRMat) (col_ind : ℕ) : List ℕ :=
  (csr_mat.indices.drop (csr_mat.indptr.getD col_ind 0)).take
    (csr_mat.indptr.getD (col_ind + 1) 0 - csr_mat.indptr.getD col_ind 0)

/-- Embeds the `while n_sampled < max_samples` loop body of `sample_neg`.
`fuel` is the number of remaining iterations (`max_samples - n_sampled`), so
the loop guard becomes structural recursion on `fuel`; `draws k` is the value
of the `np.random.randint(0, n_items)` call made on the iteration with
`n_sampled = k`; `neg_item_ind` carries the last drawn candidate (`none`
before the first draw, mirroring that the Python variable is unassigned
then).  Each iteration draws, increments the count, and breaks when the draw
is outside the positive row and satisfies `violating_cond`; on exhaustion
the last candidate and the full count are returned. -/
def sample_neg_go (draws : ℕ → ℕ) (user_pos_item_inds : List ℕ)
    (violating_cond : ℕ → Bool) :
    ℕ → ℕ → Option ℕ → Option ℕ × ℕ
  | 0, n_sampled, neg_item_ind => (neg_item_ind, n_sampled)
  | fuel + 1, n_sampled, _ =>
    if draws n_sampled ∉ user_pos_item_inds ∧ violating_cond (draws n_sampled) = true then
      (some (draws n_sampled), n_sampled + 1)
    else
      sample_neg_go draws user_pos_item_inds violating_cond fuel (n_sampled + 1)
        (some (draws n_sampled))

/-- Embeds `sample_neg(user_ind, interactions, max_samples, violating_cond)`:
fetches the user's positive row with `get_row_nz` and runs the bounded
rejection-sampling loop from `n_sampled = 0` with no candidate drawn yet.
Returns `(neg_item_ind, n_sampled)`. -/
def sample_neg (draws : ℕ → ℕ) (user_ind : ℕ) (interactions : CSRMat)
    (max_samples : ℕ) (violating_cond : ℕ → Bool) : Option ℕ × ℕ :=
  sample_neg_go draws (get_row_nz interactions user_ind) violating_cond max_samples 0 none

/-- Embeds `batcher(iterable, batch_size)`: repeatedly slice off the next
`batch_size` elements (`itertools.islice`); stop as soon as the chunk comes
back empty, otherwise yield it and continue on the remainder. -/
def batcher {α : Type*} (batch_size : ℕ) (l : List α) : List (List α) :=
  if h : (l.take batch_size).isEmpty then []
  else l.take batch_size :: batcher batch_size (l.drop batch_size)
termination_by l.length
decreasing_by
  rw [List.isEmpty_iff, List.take_eq_nil_iff] at h
  push_neg at h
  have hl : 0 < l.length := List.length_pos.mpr h.2
  simp only [List.length_drop]
  omega

/-- Embeds the loop body of `full_auc(net, ground_truth)`: iterate the rows
with their `user_id`, and for each row whose set of positive items
(`true_pids = row.indices[row.data == 1]`) is nonempty append its per-user
ROC-AUC to `scores`.  The externally supplied `roc_auc` stands for the
`sklearn.metrics.roc_auc_score` call on that user's ground truth row and the
model's predictions for that user, which are numeric-library collaborators. -/
def aucLoop (roc_auc : ℕ → List ℕ → ℝ) : ℕ → List (List ℕ) → List ℝ
  | _, [] => []
  | user_id, true_pids :: rest =>
    if true_pids.isEmpty then aucLoop roc_auc (user_id + 1) rest
    else roc_auc user_id true_pids :: aucLoop roc_auc (user_id + 1) rest

/-- Embeds `np.mean(scores)`: the arithmetic mean of a list of floats, with
`none` standing for the NaN that `np.mean` produces on an empty list. -/
noncomputable def npMean (xs : List ℝ) : Option ℝ :=
  if xs = [] then none else some (xs.sum / (xs.length : ℝ))

/-- Embeds `full_auc(net, ground_truth)`: mean of the per-user AUC scores
collected over the rows with at least one positive item. -/
noncomputable def full_auc (roc_auc : ℕ → List ℕ → ℝ) (rows : List (List ℕ)) : Option ℝ :=
  npMean (aucLoop roc_auc 0 rows)

/-- Embeds the `FactNet` module state: the two embedding tables (each a map
from entity id and latent dimension to a real weight) plus the architecture
sizes stored in `__init__`. -/
structure FactNet where
  n_users : ℕ
  n_items : ℕ
  n_latent : ℕ
  user_embedding_layer : ℕ → ℕ → ℝ
  item_embedding_layer : ℕ → ℕ → ℝ

/-- Embeds `FactNet.predict_score(uid, iid)`:
`(user_embedding * item_embedding).sum(dim=1)`, the inner product of the two
latent vectors over the `n_latent` dimensions. -/
noncomputable def predict_score (net : FactNet) (uid iid : ℕ) : ℝ :=
  ∑ d ∈ Finset.range net.n_latent,
    net.user_embedding_layer uid d * net.item_embedding_layer iid d

/-- Embeds `FactNet.forward(uid, pid, nid)`: looks the user row up once and
the positive and negative item rows up in the single shared
`item_embedding_layer`, then returns both elementwise-product sums
`(pos_pred, neg_pred)`. -/
noncomputable def forward (net : FactNet) (uid pid nid : ℕ) : ℝ × ℝ :=
  (∑ d ∈ Finset.range net.n_latent,
    net.user_embedding_layer uid d * net.item_embedding_layer pid d,
   ∑ d ∈ Finset.range net.n_latent,
    net.user_embedding_layer uid d * net.item_embedding_layer nid d)

/-- Embeds `torch.sigmoid`: the logistic function `1 / (1 + exp(-x))`. -/
noncomputable def sigmoid (x : ℝ) : ℝ := 1 / (1 + Real.exp (-x))

/-- Embeds `TripletLoss.forward_sigmoid(pos_pred, neg_pred)`:
`1.0 - torch.sigmoid(pos_pred - neg_pred)`. -/
noncomputable def forward_sigmoid (pos_pred neg_pred : ℝ) : ℝ :=
  1 - sigmoid (pos_pred - neg_pred)

/-- Embeds `TripletLoss.forward_hinge(pos_pred, neg_pred)`:
`torch.clamp(1.0 + neg_pred - pos_pred, min=0.0)`. -/
noncomputable def forward_hinge (pos_pred neg_pred : ℝ) : ℝ :=
  max (1 + neg_pred - pos_pred) 0

/-- The argument handed to `torch.log` inside `TripletLoss.warp_weight`:
`torch.floor((self.n_items - 1) / nsamp)` with true (float) division, and no
clamping whatsoever. -/
noncomputable def warp_log_arg (n_items nsamp : ℕ) : ℝ :=
  ((⌊((n_items : ℝ) - 1) / (nsamp : ℝ)⌋ : ℤ) : ℝ)

/-- Embeds `TripletLoss.warp_weight(nsamp)`:
`torch.log(torch.floor((self.n_items - 1) / nsamp)) / np.log(self.n_items)`. -/
noncomputable def warp_weight (n_items nsamp : ℕ) : ℝ :=
  Real.log (warp_log_arg n_items nsamp) / Real.log (n_items : ℝ)

theorem sample_neg_go_snd_le (draws : ℕ → ℕ) (pos : List ℕ) (cond : ℕ → Bool) :
    ∀ fuel n_sampled cur,
      (sample_neg_go draws pos cond fuel n_sampled cur).2 ≤ n_sampled + fuel := by
  intro fuel
  induction fuel with
  | zero => intro n cur; simp [sample_neg_go]
  | succ fuel ih =>
    intro n cur
    by_cases hc : draws n ∉ pos ∧ cond (draws n) = true
    · simp only [sample_neg_go, if_pos hc]; omega
    · simp only [sample_neg_go, if_neg hc]
      have h := ih (n + 1) (some (draws n))
      omega

theorem sample_neg_go_snd_ge (draws : ℕ → ℕ) (pos : List ℕ) (cond : ℕ → Bool) :
    ∀ fuel n_sampled cur,
      n_sampled ≤ (sample_neg_go draws pos cond fuel n_sampled cur).2 := by
  intro fuel
  induction fuel with
  | zero => intro n cur; simp [sample_neg_go]
  | succ fuel ih =>
    intro n cur
    by_cases hc : draws n ∉ pos ∧ cond (draws n) = true
    · simp [sample_neg_go, hc]
    · simp only [sample_neg_go, if_neg hc]
      have h := ih (n + 1) (some (draws n))
      omega

theorem sample_neg_go_early_valid (draws : ℕ → ℕ) (pos : List ℕ) (cond : ℕ → Bool) :
    ∀ fuel n_sampled cur,
      (sample_neg_go draws pos cond fuel n_sampled cur).2 < n_sampled + fuel →
      ∃ d, (sample_neg_go draws pos cond fuel n_sampled cur).1 = some d ∧
        d ∉ pos ∧ cond d = true := by
  intro fuel
  induction fuel with
  | zero => intro n cur h; simp [sample_neg_go] at h
  | succ fuel ih =>
    intro n cur h
    by_cases hc : draws n ∉ pos ∧ cond (draws n) = true
    · refine ⟨draws n, ?_, hc.1, hc.2⟩
      simp [sample_neg_go, hc]
    · simp only [sample_neg_go, if_neg hc] at h ⊢
      exact ih (n + 1) (some (draws n)) (by omega)

theorem sample_neg_go_val (draws : ℕ → ℕ) (pos : List ℕ) (cond : ℕ → Bool) :
    ∀ fuel n_sampled cur, 0 < fuel →
      ∃ k, n_sampled ≤ k ∧ k < n_sampled + fuel ∧
        (sample_neg_go draws pos cond fuel n_sampled cur).1 = some (draws k) := by
  intro fuel
  induction fuel with
  | zero => intro n cur h; omega
  | succ fuel ih =>
    intro n cur _
    by_cases hc : draws n ∉ pos ∧ cond (draws n) = true
    · exact ⟨n, le_refl n, by omega, by simp [sample_neg_go, hc]⟩
    · rcases Nat.eq_zero_or_pos fuel with hf | hf
      · subst hf
        exact ⟨n, le_refl n, by omega, by simp [sample_neg_go, hc]⟩
      · obtain ⟨k, hk1, hk2, hk3⟩ := ih (n + 1) (some (draws n)) hf
        refine ⟨k, by omega, by omega, ?_⟩
        simp only [sample_neg_go, if_neg hc]
        exact hk3

theorem sample_neg_go_snd_pos (draws : ℕ → ℕ) (pos : List ℕ) (cond : ℕ → Bool) :
    ∀ fuel n_sampled cur, 0 < fuel →
      n_sampled + 1 ≤ (sample_neg_go draws pos cond fuel n_sampled cur).2 := by
  intro fuel
  induction fuel with
  | zero => intro n cur h; omega
  | succ fuel _ =>
    intro n cur _
    by_cases hc : draws n ∉ pos ∧ cond (draws n) = true
    · simp [sample_neg_go, hc]
    · simp only [sample_neg_go, if_neg hc]
      exact sample_neg_go_snd_ge draws pos cond fuel (n + 1) (some (draws n))

theorem sample_neg_go_frame (draws draws' : ℕ → ℕ) (pos : List ℕ) (cond : ℕ → Bool) :
    ∀ fuel n_sampled cur,
      (∀ k, n_sampled ≤ k → k < n_sampled + fuel → draws k = draws' k) →
      sample_neg_go draws pos cond fuel n_sampled cur =
        sample_neg_go draws' pos cond fuel n_sampled cur := by
  intro fuel
  induction fuel with
  | zero => intro n cur _; simp [sample_neg_go]
  | succ fuel ih =>
    intro n cur hagree
    have hn : draws n = draws' n := hagree n (le_refl n) (by omega)
    by_cases hc : draws n ∉ pos ∧ cond (draws n) = true
    · have hc' : draws' n ∉ pos ∧ cond (draws' n) = true := by rw [← hn]; exact hc
      simp [sample_neg_go, hc, hc', hn]
    · have hc' : ¬(draws' n ∉ pos ∧ cond (draws' n) = true) := by rw [← hn]; exact hc
      simp only [sample_neg_go, if_neg hc, if_neg hc', hn]
      exact ih (n + 1) (some (draws' n)) (fun k h1 h2 => hagree k (by omega) (by omega))

/-- C2: for a user with a nonempty positive set, any draw that completes with
fewer than `max_samples` attempts returns a negative item outside the
positive set that satisfies the acceptance predicate, and a returned
candidate violating either condition can only occur with the attempt count
equal to `max_samples`. -/
theorem sample_neg_completed_draw_valid (draws : ℕ → ℕ) (user_ind : ℕ)
    (interactions : CSRMat) (max_samples : ℕ) (violating_cond : ℕ → Bool)
    (hpos : get_row_nz interactions user_ind ≠ []) :
    ((sample_neg draws user_ind interactions max_samples violating_cond).2 < max_samples →
      ∃ d, (sample_neg draws user_ind interactions max_samples violating_cond).1 = some d ∧
        d ∉ get_row_nz interactions user_ind ∧ violating_cond d = true) ∧
    (∀ d, (sample_neg draws user_ind interactions max_samples violating_cond).1 = some d →
      (d ∈ get_row_nz interactions user_ind ∨ violating_cond d = false) →
      (sample_neg draws user_ind interactions max_samples violating_cond).2 = max_samples) := by
  constructor
  · intro hlt
    have h := sample_neg_go_early_valid draws (get_row_nz interactions user_ind)
      violating_cond max_samples 0 none (by simpa using hlt)
    simpa [sample_neg] using h
  · intro d hd hbad
    have hle := sample_neg_go_snd_le draws (get_row_nz interactions user_ind)
      violating_cond max_samples 0 none
    by_contra hne
    have hlt : (sample_neg draws user_ind interactions max_samples violating_cond).2 <
        max_samples := by
      simp only [sample_neg] at hne ⊢
      omega
    obtain ⟨d', hd', hnotmem, hcond⟩ := sample_neg_go_early_valid draws
      (get_row_nz interactions user_ind) violating_cond max_samples 0 none
      (by simpa [sample_neg] using hlt)
    have : d = d' := by
      simp only [sample_neg] at hd
      rw [hd] at hd'
      exact Option.some_injective _ hd'
    subst this
    rcases hbad with hmem | hfalse
    · exact hnotmem hmem
    · rw [hcond] at hfalse; simp at hfalse

/-- C6: the sampler consumes at most `max_samples` draws: the reported
attempt count never exceeds `max_samples`, and the result only depends on
the first `max_samples` values of the random stream, whatever the acceptance
predicate and the user's positive set are. -/
theorem sample_neg_bounded (draws draws' : ℕ → ℕ) (user_ind : ℕ)
    (interactions : CSRMat) (max_samples : ℕ) (violating_cond : ℕ → Bool)
    (hagree : ∀ k, k < max_samples → draws k = draws' k) :
    (sample_neg draws user_ind interactions max_samples violating_cond).2 ≤ max_samples ∧
    sample_neg draws user_ind interactions max_samples violating_cond =
      sample_neg draws' user_ind interactions max_samples violating_cond := by
  constructor
  · have h := sample_neg_go_snd_le draws (get_row_nz interactions user_ind)
      violating_cond max_samples 0 none
    simpa [sample_neg] using h
  · exact sample_neg_go_frame draws draws' (get_row_nz interactions user_ind)
      violating_cond max_samples 0 none (fun k _ h2 => hagree k (by omega))

/-- C10: with at least one allowed attempt and all random draws landing in
the catalog `[0, n_items)`, `sample_neg` returns an actual item id below
`n_items` and an attempt count between `1` and `max_samples`. -/
theorem sample_neg_result_in_range (draws : ℕ → ℕ) (user_ind : ℕ)
    (interactions : CSRMat) (max_samples n_items : ℕ) (violating_cond : ℕ → Bool)
    (hms : 1 ≤ max_samples) (hn : 1 ≤ n_items) (hdraws : ∀ k, draws k < n_items) :
    ∃ d, (sample_neg draws user_ind interactions max_samples violating_cond).1 = some d ∧
      d < n_items ∧
      1 ≤ (sample_neg draws user_ind interactions max_samples violating_cond).2 ∧
      (sample_neg draws user_ind interactions max_samples violating_cond).2 ≤ max_samples := by
  obtain ⟨k, _, _, hk⟩ := sample_neg_go_val draws (get_row_nz interactions user_ind)
    violating_cond max_samples 0 none (by omega)
  refine ⟨draws k, by simpa [sample_neg] using hk, hdraws k, ?_, ?_⟩
  · have h := sample_neg_go_snd_pos draws (get_row_nz interactions user_ind)
      violating_cond max_samples 0 none (by omega)
    simpa [sample_neg] using h
  · have h := sample_neg_go_snd_le draws (get_row_nz interactions user_ind)
      violating_cond max_samples 0 none
    simpa [sample_neg] using h

/-- C2 witness: a concrete completed draw, for a user whose positive row is
the single item `5`, a constant random stream hitting item `0`, and an
always-true predicate, stops after one of three allowed attempts with a
valid negative. -/
theorem sample_neg_completed_draw_valid_witness :
    get_row_nz ⟨[0, 1], [5]⟩ 0 ≠ [] ∧
    (((sample_neg (fun _ : ℕ => 0) 0 ⟨[0, 1], [5]⟩ 3 (fun _ : ℕ => true)).2 < 3 →
      ∃ d, (sample_neg (fun _ : ℕ => 0) 0 ⟨[0, 1], [5]⟩ 3 (fun _ : ℕ => true)).1 = some d ∧
        d ∉ get_row_nz ⟨[0, 1], [5]⟩ 0 ∧ (fun _ : ℕ => true) d = true) ∧
    (∀ d, (sample_neg (fun _ : ℕ => 0) 0 ⟨[0, 1], [5]⟩ 3 (fun _ : ℕ => true)).1 = some d →
      (d ∈ get_row_nz ⟨[0, 1], [5]⟩ 0 ∨ (fun _ : ℕ => true) d = false) →
      (sample_neg (fun _ : ℕ => 0) 0 ⟨[0, 1], [5]⟩ 3 (fun _ : ℕ => true)).2 = 3)) :=
  ⟨by decide,
   sample_neg_completed_draw_valid (fun _ : ℕ => 0) 0 ⟨[0, 1], [5]⟩ 3 (fun _ : ℕ => true) (by decide)⟩

/-- C6 witness: for a draw cap of two attempts, two random streams agreeing
on their first two values give identical sampler results, and the attempt
count stays at most two. -/
theorem sample_neg_bounded_witness :
    (∀ k, k < 2 → (fun n : ℕ => n) k = (fun n : ℕ => if n < 2 then n else 5) k) ∧
    ((sample_neg (fun n : ℕ => n) 0 ⟨[0, 1], [0]⟩ 2 (fun _ : ℕ => false)).2 ≤ 2 ∧
    sample_neg (fun n : ℕ => n) 0 ⟨[0, 1], [0]⟩ 2 (fun _ : ℕ => false) =
      sample_neg (fun n : ℕ => if n < 2 then n else 5) 0 ⟨[0, 1], [0]⟩ 2 (fun _ : ℕ => false)) :=
  ⟨by decide,
   sample_neg_bounded (fun n : ℕ => n) (fun n : ℕ => if n < 2 then n else 5) 0 ⟨[0, 1], [0]⟩ 2
     (fun _ : ℕ => false) (by decide)⟩

/-- C10 witness: with one allowed attempt, a one-item catalog and a random
stream always drawing item `0`, the sampler returns item `0` with attempt
count `1`. -/
theorem sample_neg_result_in_range_witness :
    1 ≤ 1 ∧ (∀ k, (fun _ : ℕ => 0) k < 1) ∧
    ∃ d, (sample_neg (fun _ : ℕ => 0) 0 ⟨[0, 1], [0]⟩ 1 (fun _ : ℕ => true)).1 = some d ∧
      d < 1 ∧
      1 ≤ (sample_neg (fun _ : ℕ => 0) 0 ⟨[0, 1], [0]⟩ 1 (fun _ : ℕ => true)).2 ∧
      (sample_neg (fun _ : ℕ => 0) 0 ⟨[0, 1], [0]⟩ 1 (fun _ : ℕ => true)).2 ≤ 1 :=
  ⟨le_refl 1, fun _ => Nat.one_pos,
   sample_neg_result_in_range (fun _ : ℕ => 0) 0 ⟨[0, 1], [0]⟩ 1 1 (fun _ : ℕ => true)
     (le_refl 1) (le_refl 1) (fun _ => Nat.one_pos)⟩

theorem batcher_take_nil {α : Type*} {batch_size : ℕ} {l : List α}
    (h : l.take batch_size = []) : batcher batch_size l = [] := by
  rw [batcher.eq_def]
  simp [h]

theorem batcher_take_ne_nil {α : Type*} {batch_size : ℕ} {l : List α}
    (h : l.take batch_size ≠ []) :
    batcher batch_size l = l.take batch_size :: batcher batch_size (l.drop batch_size) := by
  rw [batcher.eq_def]
  rw [dif_neg (by simpa [List.isEmpty_iff] using h)]

theorem batcher_correct_aux {α : Type*} (batch_size : ℕ) (hB : 1 ≤ batch_size) :
    ∀ bound (l : List α), l.length ≤ bound →
      (batcher batch_size l).length = (l.length + batch_size - 1) / batch_size ∧
      (batcher batch_size l).flatten = l ∧
      (∀ c ∈ (batcher batch_size l).dropLast, c.length = batch_size) ∧
      (∀ c, (batcher batch_size l).getLast? = some c →
        c.length = if l.length % batch_size = 0 then batch_size
          else l.length % batch_size) := by
  intro bound
  induction bound with
  | zero =>
    intro l hl
    have hnil : l = [] := by cases l with | nil => rfl | cons a as => simp at hl
    subst hnil
    rw [batcher_take_nil (List.take_nil)]
    refine ⟨?_, rfl, by simp, by simp⟩
    simp only [List.length_nil, List.length, Nat.zero_add]
    exact (Nat.div_eq_of_lt (by omega)).symm
  | succ bound ih =>
    intro l hl
    by_cases hnil : l = []
    · subst hnil
      rw [batcher_take_nil (List.take_nil)]
      refine ⟨?_, rfl, by simp, by simp⟩
      simp only [List.length_nil, List.length, Nat.zero_add]
      exact (Nat.div_eq_of_lt (by omega)).symm
    have hlen : 0 < l.length := List.length_pos.mpr hnil
    have htake : l.take batch_size ≠ [] := by
      simp only [ne_eq, List.take_eq_nil_iff]
      push_neg
      exact ⟨by omega, hnil⟩
    rw [batcher_take_ne_nil htake]
    by_cases hLB : l.length ≤ batch_size
    · have hdrop : l.drop batch_size = [] := List.drop_of_length_le hLB
      have htakeall : l.take batch_size = l := List.take_of_length_le hLB
      rw [hdrop, batcher_take_nil (List.take_nil), htakeall]
      refine ⟨?_, by simp, by simp, ?_⟩
      · simp only [List.length_cons, List.length_nil, Nat.zero_add]
        exact (Nat.div_eq_of_lt_le (by omega) (by omega)).symm
      · intro c hc
        simp only [List.getLast?_singleton, Option.some.injEq] at hc
        subst hc
        rcases eq_or_lt_of_le hLB with heq | hlt
        · rw [heq]
          simp [Nat.mod_self]
        · rw [Nat.mod_eq_of_lt hlt, if_neg (by omega)]
    · push_neg at hLB
      have hdroplen : (l.drop batch_size).length = l.length - batch_size :=
        List.length_drop batch_size l
      obtain ⟨ih1, ih2, ih3, ih4⟩ := ih (l.drop batch_size) (by omega)
      have hrestlen : 1 ≤ (batcher batch_size (l.drop batch_size)).length := by
        rw [ih1, hdroplen]
        rw [Nat.one_le_div_iff (by omega)]
        omega
      have hrestne : batcher batch_size (l.drop batch_size) ≠ [] := by
        intro hcon
        rw [hcon] at hrestlen
        simp at hrestlen
      obtain ⟨r, rs, hrs⟩ := List.exists_cons_of_ne_nil hrestne
      have htakelen : (l.take batch_size).length = batch_size := by
        rw [List.length_take]
        omega
      have hmod : l.length % batch_size = (l.length - batch_size) % batch_size := by
        conv_lhs => rw [show l.length = (l.length - batch_size) + batch_size by omega]
        rw [Nat.add_mod_right]
      refine ⟨?_, ?_, ?_, ?_⟩
      · simp only [List.length_cons, ih1, hdroplen]
        rw [show l.length + batch_size - 1 = (l.length - batch_size + batch_size - 1) +
          batch_size by omega]
        rw [Nat.add_div_right _ (by omega)]
      · simp only [List.flatten_cons, ih2]
        exact List.take_append_drop batch_size l
      · intro c hc
        rw [hrs, List.dropLast_cons₂] at hc
        rcases List.mem_cons.mp hc with hceq | hcmem
        · rw [hceq]; exact htakelen
        · exact ih3 c (by rw [hrs]; exact hcmem)
      · intro c hc
        rw [hrs, List.getLast?_cons_cons, ← hrs] at hc
        rw [hmod, ← hdroplen]
        rw [hdroplen] at ih4
        have := ih4 c hc
        rw [hdroplen]
        exact this

/-- C5: for `batch_size ≥ 1`, `batcher` splits a list of length `L` into
`ceil(L / batch_size)` chunks whose concatenation in order is the original
list, every chunk before the last has exactly `batch_size` elements, the
last chunk has `L mod batch_size` elements (`batch_size` when the remainder
is zero), and an empty input produces no chunks. -/
theorem batcher_chunks {α : Type*} (batch_size : ℕ) (l : List α)
    (hB : 1 ≤ batch_size) :
    (batcher batch_size l).length = (l.length + batch_size - 1) / batch_size ∧
    (batcher batch_size l).flatten = l ∧
    (∀ c ∈ (batcher batch_size l).dropLast, c.length = batch_size) ∧
    (∀ c, (batcher batch_size l).getLast? = some c →
      c.length = if l.length % batch_size = 0 then batch_size
        else l.length % batch_size) ∧
    (l = [] → batcher batch_size l = []) := by
  obtain ⟨h1, h2, h3, h4⟩ := batcher_correct_aux batch_size hB l.length l (le_refl _)
  exact ⟨h1, h2, h3, h4, fun h => by rw [h]; exact batcher_take_nil List.take_nil⟩

/-- C5 witness: the chunking facts hold concretely for a five-element list
split into chunks of two. -/
theorem batcher_chunks_witness :
    1 ≤ 2 ∧
    ((batcher 2 [0, 1, 2, 3, 4]).length = (([0, 1, 2, 3, 4] : List ℕ).length + 2 - 1) / 2 ∧
    (batcher 2 [0, 1, 2, 3, 4]).flatten = [0, 1, 2, 3, 4] ∧
    (∀ c ∈ (batcher 2 ([0, 1, 2, 3, 4] : List ℕ)).dropLast, c.length = 2) ∧
    (∀ c, (batcher 2 ([0, 1, 2, 3, 4] : List ℕ)).getLast? = some c →
      c.length = if ([0, 1, 2, 3, 4] : List ℕ).length % 2 = 0 then 2
        else ([0, 1, 2, 3, 4] : List ℕ).length % 2) ∧
    (([0, 1, 2, 3, 4] : List ℕ) = [] → batcher 2 [0, 1, 2, 3, 4] = [])) :=
  ⟨by omega, batcher_chunks 2 [0, 1, 2, 3, 4] (by omega)⟩

theorem aucLoop_eq_filter (roc_auc : ℕ → List ℕ → ℝ) :
    ∀ (rows : List (List ℕ)) (user_id : ℕ),
      aucLoop roc_auc user_id rows =
        ((List.enumFrom user_id rows).filter (fun p => !p.2.isEmpty)).map
          (fun p => roc_auc p.1 p.2) := by
  intro rows
  induction rows with
  | nil => intro uid; simp [aucLoop]
  | cons row rest ih =>
    intro uid
    by_cases hrow : row.isEmpty
    · simp [aucLoop, hrow, List.filter_cons, ih]
    · simp [aucLoop, hrow, List.filter_cons, ih]

theorem aucLoop_all_empty (roc_auc : ℕ → List ℕ → ℝ) :
    ∀ (rows : List (List ℕ)) (user_id : ℕ), (∀ r ∈ rows, r = []) →
      aucLoop roc_auc user_id rows = [] := by
  intro rows
  induction rows with
  | nil => intro uid _; rfl
  | cons row rest ih =>
    intro uid hall
    have hrow : row = [] := hall row (List.mem_cons_self row rest)
    simp only [aucLoop, hrow, List.isEmpty_nil, if_pos]
    exact ih (uid + 1) (fun r hr => hall r (List.mem_cons_of_mem _ hr))

/-- C4: `full_auc` is the mean of the per-user AUC values taken exactly over
the users whose row has at least one positive entry (rows with an empty
positive set contribute nothing), and when no row qualifies the result is
the no-data value `none` (NaN), never `some 0` or `some 1`. -/
theorem full_auc_qualifying_users (roc_auc : ℕ → List ℕ → ℝ)
    (rows : List (List ℕ)) :
    full_auc roc_auc rows =
      npMean (((rows.enum).filter (fun p => !p.2.isEmpty)).map
        (fun p => roc_auc p.1 p.2)) ∧
    ((∀ r ∈ rows, r = []) →
      full_auc roc_auc rows = none ∧ ∀ x : ℝ, full_auc roc_auc rows ≠ some x) := by
  constructor
  · rw [full_auc, aucLoop_eq_filter]
    rfl
  · intro hall
    have h : full_auc roc_auc rows = none := by
      rw [full_auc, aucLoop_all_empty roc_auc rows 0 hall]
      rfl
    exact ⟨h, fun x hx => by rw [h] at hx; exact Option.noConfusion hx⟩

/-- C4 witness: on a two-user matrix where neither row has a positive entry,
`full_auc` returns the no-data value `none`. -/
theorem full_auc_qualifying_users_witness :
    (∀ r ∈ ([[], []] : List (List ℕ)), r = []) ∧
    full_auc (fun _ _ => (0 : ℝ)) [[], []] = none :=
  ⟨by decide,
   ((full_auc_qualifying_users (fun _ _ => (0 : ℝ)) [[], []]).2 (by decide)).1⟩

/-- C7: the paired forward pass returns exactly the single scoring function
applied to the positive item and to the negative item, both item lookups
going through the one shared item-embedding table. -/
theorem forward_eq_paired_predict_score (net : FactNet) (uid pid nid : ℕ) :
    forward net uid pid nid = (predict_score net uid pid, predict_score net uid nid) :=
  rfl

/-- C8: the hinge loss is nonnegative, and it vanishes exactly when the
positive score beats the negative score by at least the margin `1`. -/
theorem forward_hinge_nonneg_zero_iff :
    ∀ pos_pred neg_pred : ℝ, 0 ≤ forward_hinge pos_pred neg_pred ∧
      (forward_hinge pos_pred neg_pred = 0 ↔ 1 ≤ pos_pred - neg_pred) := by
  intro p n
  refine ⟨le_max_right _ _, ?_⟩
  rw [forward_hinge, max_eq_right_iff]
  constructor
  · intro h; linarith
  · intro h; linarith

theorem sigmoid_pos (x : ℝ) : 0 < sigmoid x := by
  rw [sigmoid]
  positivity

theorem sigmoid_lt_one (x : ℝ) : sigmoid x < 1 := by
  rw [sigmoid, div_lt_one (by positivity)]
  have := Real.exp_pos (-x)
  linarith

theorem sigmoid_lt_sigmoid {x y : ℝ} (h : x < y) : sigmoid x < sigmoid y := by
  rw [sigmoid, sigmoid]
  apply one_div_lt_one_div_of_lt (by positivity)
  have := Real.exp_lt_exp.mpr (neg_lt_neg h)
  linarith

/-- C9: the sigmoid-pairwise loss always lies strictly between `0` and `1`,
is strictly decreasing in the score difference `pos_pred - neg_pred`, and
tends to `0` as that difference grows without bound. -/
theorem forward_sigmoid_open_interval_decreasing :
    (∀ pos_pred neg_pred : ℝ,
      forward_sigmoid pos_pred neg_pred ∈ Set.Ioo (0 : ℝ) 1) ∧
    (∀ p₁ n₁ p₂ n₂ : ℝ, p₁ - n₁ < p₂ - n₂ →
      forward_sigmoid p₂ n₂ < forward_sigmoid p₁ n₁) ∧
    Filter.Tendsto (fun diff : ℝ => forward_sigmoid diff 0) Filter.atTop (nhds 0) := by
  refine ⟨?_, ?_, ?_⟩
  · intro p n
    have h1 := sigmoid_pos (p - n)
    have h2 := sigmoid_lt_one (p - n)
    exact ⟨by rw [forward_sigmoid]; linarith, by rw [forward_sigmoid]; linarith⟩
  · intro p₁ n₁ p₂ n₂ h
    have := sigmoid_lt_sigmoid h
    rw [forward_sigmoid, forward_sigmoid]
    linarith
  · have h1 : Filter.Tendsto (fun d : ℝ => Real.exp (-d)) Filter.atTop (nhds 0) :=
      Real.tendsto_exp_neg_atTop_nhds_zero
    have h2 : Filter.Tendsto (fun d : ℝ => 1 + Real.exp (-d)) Filter.atTop (nhds 1) := by
      have := tendsto_const_nhds (x := (1 : ℝ)) (f := Filter.atTop (α := ℝ))
      simpa using this.add h1
    have h3 : Filter.Tendsto (fun d : ℝ => sigmoid d) Filter.atTop (nhds 1) := by
      have hdiv := Filter.Tendsto.div
        (tendsto_const_nhds (x := (1 : ℝ)) (f := Filter.atTop (α := ℝ))) h2 one_ne_zero
      have heq : ∀ d : ℝ,
          ((fun _ : ℝ => (1 : ℝ)) / fun d : ℝ => 1 + Real.exp (-d)) d = sigmoid d := by
        intro d
        simp [sigmoid, Pi.div_apply]
      have hcong := hdiv.congr heq
      simpa using hcong
    have h4 := (tendsto_const_nhds (x := (1 : ℝ)) (f := Filter.atTop (α := ℝ))).sub h3
    simpa [forward_sigmoid] using h4

/-- C9 witness: at a concrete pair of score differences the loss really
decreases, and a concrete loss value lies inside the open unit interval. -/
theorem forward_sigmoid_open_interval_decreasing_witness :
    forward_sigmoid 0 0 ∈ Set.Ioo (0 : ℝ) 1 ∧
    ((0 : ℝ) - 0 < 1 - 0) ∧ forward_sigmoid 1 0 < forward_sigmoid 0 0 :=
  ⟨forward_sigmoid_open_interval_decreasing.1 0 0, by norm_num,
   forward_sigmoid_open_interval_decreasing.2.1 0 0 1 0 (by norm_num)⟩

theorem warp_log_arg_eq_div (n_items nsamp : ℕ) (hN : 1 ≤ n_items)
    (hs : 1 ≤ nsamp) :
    warp_log_arg n_items nsamp = (((n_items - 1) / nsamp : ℕ) : ℝ) := by
  rw [warp_log_arg]
  have hcast : ((n_items - 1 : ℕ) : ℝ) = (n_items : ℝ) - 1 := by
    rw [Nat.cast_sub hN, Nat.cast_one]
  rw [← hcast]
  have hnn : (0 : ℝ) ≤ ((n_items - 1 : ℕ) : ℝ) / (nsamp : ℝ) := by positivity
  rw [← Int.natCast_floor_eq_floor hnn, Nat.floor_div_nat, Nat.floor_natCast]
  norm_cast

/-- C3: for every catalog size of at least two items, the WARP weight is
non-increasing in the attempt count over the domain `[1, n_items - 1]`, it
is `0` at `nsamp = n_items - 1`, it is nonnegative on the whole domain, and
in particular `w(1) ≥ w(n_items - 1) ≥ 0`. -/
theorem warp_weight_monotone_props (n_items : ℕ) (hN : 2 ≤ n_items) :
    (∀ a b : ℕ, 1 ≤ a → a ≤ b → b ≤ n_items - 1 →
      warp_weight n_items b ≤ warp_weight n_items a) ∧
    warp_weight n_items (n_items - 1) = 0 ∧
    (∀ nsamp : ℕ, 1 ≤ nsamp → nsamp ≤ n_items - 1 →
      0 ≤ warp_weight n_items nsamp) ∧
    warp_weight n_items (n_items - 1) ≤ warp_weight n_items 1 := by
  have hN1 : 1 ≤ n_items := by omega
  have hlogN : 0 < Real.log (n_items : ℝ) :=
    Real.log_pos (by exact_mod_cast (show (1 : ℕ) < n_items by omega))
  have hmono : ∀ a b : ℕ, 1 ≤ a → a ≤ b → b ≤ n_items - 1 →
      warp_weight n_items b ≤ warp_weight n_items a := by
    intro a b ha hab hb
    have hb1 : 1 ≤ b := le_trans ha hab
    rw [warp_weight, warp_weight, warp_log_arg_eq_div n_items a hN1 ha,
      warp_log_arg_eq_div n_items b hN1 hb1]
    have hdivle : (n_items - 1) / b ≤ (n_items - 1) / a :=
      Nat.div_le_div_left hab (by omega)
    have hb_ge1 : 1 ≤ (n_items - 1) / b := (Nat.one_le_div_iff (by omega)).mpr hb
    have hlog : Real.log (((n_items - 1) / b : ℕ) : ℝ) ≤
        Real.log (((n_items - 1) / a : ℕ) : ℝ) :=
      Real.log_le_log (by exact_mod_cast hb_ge1) (by exact_mod_cast hdivle)
    exact (div_le_div_iff_of_pos_right hlogN).mpr hlog
  have hzero : warp_weight n_items (n_items - 1) = 0 := by
    rw [warp_weight, warp_log_arg_eq_div n_items (n_items - 1) hN1 (by omega),
      Nat.div_self (by omega)]
    simp
  refine ⟨hmono, hzero, ?_, ?_⟩
  · intro nsamp hs1 hs2
    rw [warp_weight, warp_log_arg_eq_div n_items nsamp hN1 hs1]
    apply div_nonneg _ (le_of_lt hlogN)
    apply Real.log_nonneg
    exact_mod_cast (Nat.one_le_div_iff (by omega)).mpr hs2
  · exact hmono 1 (n_items - 1) (le_refl 1) (by omega) (le_refl _)

/-- C3 witness: the WARP weight facts instantiated at a four-item catalog:
the weight at the top of the domain is zero and below the weight at one
attempt. -/
theorem warp_weight_monotone_props_witness :
    2 ≤ 4 ∧ warp_weight 4 (4 - 1) = 0 ∧
    warp_weight 4 (4 - 1) ≤ warp_weight 4 1 :=
  ⟨by omega, (warp_weight_monotone_props 4 (by omega)).2.1,
   (warp_weight_monotone_props 4 (by omega)).2.2.2⟩

/-- C1: contrary to the claim, `warp_weight` performs no clamping: at a
catalog of `3` items and an attempt count of `3`, the argument handed to the
logarithm is `floor(2/3) = 0`, not at least `1`, so the weight evaluates the
logarithm at `0` (an undefined value, `-inf`, in floating point). -/
theorem warp_weight_unclamped_at_three :
    warp_log_arg 3 3 = 0 ∧ ¬ (1 ≤ warp_log_arg 3 3) ∧
    warp_weight 3 3 = Real.log 0 / Real.log 3 := by
  have h : warp_log_arg 3 3 = 0 := by
    rw [warp_log_arg]
    have hfloor : ⌊(((3 : ℕ) : ℝ) - 1) / ((3 : ℕ) : ℝ)⌋ = 0 := by
      rw [Int.floor_eq_zero_iff]
      constructor
      · push_cast
        norm_num
      · push_cast
        norm_num
    rw [hfloor]
    norm_num
  refine ⟨h, by rw [h]; norm_num, ?_⟩
  rw [warp_weight, h]
  norm_num

end TripletRec
